import Mathlib

/-!
Verification of the gap-propagation utilities of the `gaps_tdi` repository
(`utility_funcs/gap_widening_utils.py` and `utility_funcs/multi_gap_utils.py`).

Series and masks are represented by their NaN pattern: a `List Bool` in which
`true` marks a NaN sample.  Every function verified here depends only on that
pattern.  Python's `int()` conversion (truncation toward zero) is `truncInt`,
and code paths on which the Python source raises an exception are modelled as
`Option`-valued functions returning `none`.
-/

/-- Truncation of a rational toward zero: the semantics of Python's `int()`. -/
def truncInt (x : ℚ) : ℤ := if 0 ≤ x then ⌊x⌋ else ⌈x⌉

/-- Branch 1 of `gap_augmentation_expression` (line 23 of the source):
`extra_widening = lagrange_order + N_nans`. -/
def extra_branch_absorbed (L n : ℤ) : ℤ := L + n

/-- Branch 2 of `gap_augmentation_expression` (line 25 of the source):
`extra_widening = (lagrange_order + 1) / 2 + D`, a real value before the final
truncation. -/
def extra_branch_half (L D : ℤ) : ℚ := ((L : ℚ) + 1) / 2 + (D : ℚ)

/-- Branch 3 of `gap_augmentation_expression` (line 27 of the source):
`extra_widening = lagrange_order`. -/
def extra_branch_worst (L : ℤ) : ℤ := L

/-- Regime boundary `B_1 = 1 + 2 * D - 2 * N_nans` of
`gap_augmentation_expression`; real-valued in the source but always an
integer. -/
def B_1 (D n : ℤ) : ℤ := 1 + 2 * D - 2 * n

/-- Regime boundary `B_2 = 2 * D - 1` of `gap_augmentation_expression`. -/
def B_2 (D : ℤ) : ℤ := 2 * D - 1

/-- Branch dispatch of `gap_augmentation_expression`: the real value of
`extra_widening` before truncation, as a function of `D = floor(delay_number *
delay)`.  The source's chained comparison `1 < lagrange_order <= B_1` is the
conjunction of the two comparisons. -/
def gap_extra (lagrange_order N_nans D : ℤ) : ℚ :=
  if 1 < lagrange_order ∧ lagrange_order ≤ B_1 D N_nans then
    (extra_branch_absorbed lagrange_order N_nans : ℚ)
  else if lagrange_order ≤ B_2 D then extra_branch_half lagrange_order D
  else (extra_branch_worst lagrange_order : ℚ)

/-- Embedding of `gap_augmentation_expression` (gap_widening_utils.py, lines
3-29): computes `D = floor(delay_number * delay)`, selects the branch value
of `extra_widening`, and returns `(int(extra_widening), int(N_nans +
extra_widening))`. -/
def gap_augmentation_expression (lagrange_order N_nans : ℤ)
    (delay delay_number : ℚ) : ℤ × ℤ :=
  (truncInt (gap_extra lagrange_order N_nans ⌊delay_number * delay⌋),
   truncInt ((N_nans : ℚ) + gap_extra lagrange_order N_nans ⌊delay_number * delay⌋))

/-- Embedding of `_cascade_widening` (gap_widening_utils.py, lines 31-47):
for every delay multiplier except the last, only the `total` count is fed
forward as the next stage's `N_nans`; the final stage's pair is returned.
On an empty multiplier list the Python source raises `IndexError` at
`delay_numbers[-1]`, modelled as `none`. -/
def _cascade_widening (lagrange_order initial_nans : ℤ) (delay : ℚ)
    (delay_numbers : List ℚ) : Option (ℤ × ℤ) :=
  match delay_numbers.getLast? with
  | none => none
  | some kLast =>
    let nans := delay_numbers.dropLast.foldl
      (fun m k => (gap_augmentation_expression lagrange_order m delay k).2)
      initial_nans
    some (gap_augmentation_expression lagrange_order nans delay kLast)

/-- Embedding of `widening_gap_X1` (factorized): cascade with multipliers
`[1, 1, 2]`. -/
def widening_gap_X1 (lagrange_order N_nans : ℤ) (delay : ℚ) : Option (ℤ × ℤ) :=
  _cascade_widening lagrange_order N_nans delay [1, 1, 2]

/-- Embedding of `widening_gap_X2` (factorized): run `widening_gap_X1`, take
its `total`, and make one further `gap_augmentation_expression` call with
multiplier `4.0` using that total as `N_nans`. -/
def widening_gap_X2 (lagrange_order N_nans : ℤ) (delay : ℚ) : Option (ℤ × ℤ) :=
  (widening_gap_X1 lagrange_order N_nans delay).map
    (fun r => gap_augmentation_expression lagrange_order r.2 delay 4)

/-- Embedding of `widening_gap_X1_unfactorized`: cascade with multipliers
`[1, 3]`. -/
def widening_gap_X1_unfactorized (lagrange_order N_nans : ℤ) (delay : ℚ) :
    Option (ℤ × ℤ) :=
  _cascade_widening lagrange_order N_nans delay [1, 3]

/-- Embedding of `widening_gap_X2_unfactorized`: cascade with multipliers
`[1, 7]`. -/
def widening_gap_X2_unfactorized (lagrange_order N_nans : ℤ) (delay : ℚ) :
    Option (ℤ × ℤ) :=
  _cascade_widening lagrange_order N_nans delay [1, 7]

/-- Embedding of `construct_mask_single_gap` (gap_widening_utils.py, lines
106-120): an all-ones array of the given length with indices
`mid : mid + N_nans` set to NaN, where `mid = int(length / 2)`; the Python
slice assignment silently clips at the end of the array, which the
`i < length` bound of `List.range` reproduces.  `true` marks a NaN. -/
def construct_mask_single_gap (N_nans len : ℕ) : List Bool :=
  (List.range len).map (fun i => decide (len / 2 ≤ i ∧ i < len / 2 + N_nans))

/-- Helper: truncation of an integer cast is the integer itself. -/
theorem truncInt_intCast (m : ℤ) : truncInt (m : ℚ) = m := by
  unfold truncInt
  split <;> simp

/-- Helper: truncation of a nonnegative rational is its floor. -/
theorem truncInt_of_nonneg {x : ℚ} (hx : 0 ≤ x) : truncInt x = ⌊x⌋ := by
  unfold truncInt
  simp [hx]

/-- C9: `gap_augmentation_expression` with `lagrange_order = 5`, `N_nans = 3`,
`delay = 10.0` and the default multiplier `1.0` returns exactly `(8, 11)`:
`D = 10`, `B_1 = 15`, `B_2 = 19`, the first branch applies since
`1 < 5 ≤ 15`, so `extra = 5 + 3 = 8` and `total = 11`. -/
theorem gap_augmentation_concrete :
    gap_augmentation_expression 5 3 10 1 = (8, 11) ∧
    (⌊(1 : ℚ) * 10⌋ : ℤ) = 10 ∧ B_1 10 3 = 15 ∧ B_2 10 = 19 := by
  have hD : (⌊(1 : ℚ) * 10⌋ : ℤ) = 10 := by norm_num
  refine ⟨?_, hD, by decide, by decide⟩
  rw [gap_augmentation_expression, hD]
  norm_num [gap_extra, B_1, B_2, extra_branch_absorbed, truncInt, Prod.ext_iff]

/-- C3 counterexample: with `n = 0`, `d = 2`, `k = 1` (so `D = floor(1*2) = 2`
and `B_2 = 3`, a valid regime boundary since `B_2 ≥ 1`), branch 2 evaluates to
`(3+1)/2 + 2 = 4` while branch 3 evaluates to `3`: the two branches adjacent
at `B_2` do NOT agree at the exact boundary value. -/
theorem branch_boundary_B2_counterexample :
    B_2 2 = 3 ∧ (⌊(1 : ℚ) * 2⌋ : ℤ) = 2 ∧
    truncInt (extra_branch_half (B_2 2) 2) = 4 ∧
    extra_branch_worst (B_2 2) = 3 ∧
    truncInt (extra_branch_half (B_2 2) 2) ≠ extra_branch_worst (B_2 2) := by
  have h4 : truncInt (extra_branch_half (B_2 2) 2) = 4 := by
    norm_num [extra_branch_half, B_2, truncInt]
  refine ⟨by decide, by norm_num, h4, by decide, ?_⟩
  rw [h4]
  decide

/-- C3 amended: with `D = floor(k*d)`, branch 1 and branch 2 agree exactly at
`L = B_1`; at `L = B_2` branch 2 exceeds branch 3 by exactly one, and the
agreement between the two branches instead holds at `L = B_2 + 1` (the first
order of the third regime) once the documented truncation is applied. -/
theorem branch_boundaries_agree_amended (n : ℤ) (d k : ℚ)
    (hn : 0 ≤ n) (hd : 0 ≤ d) (hk : 0 < k) :
    truncInt (extra_branch_half (B_1 ⌊k * d⌋ n) ⌊k * d⌋) =
      extra_branch_absorbed (B_1 ⌊k * d⌋ n) n ∧
    extra_branch_half (B_2 ⌊k * d⌋) ⌊k * d⌋ =
      (extra_branch_worst (B_2 ⌊k * d⌋) : ℚ) + 1 ∧
    truncInt (extra_branch_half (B_2 ⌊k * d⌋ + 1) ⌊k * d⌋) =
      extra_branch_worst (B_2 ⌊k * d⌋ + 1) := by
  set D := ⌊k * d⌋ with hDdef
  have hD : 0 ≤ D := Int.floor_nonneg.mpr (mul_nonneg hk.le hd)
  refine ⟨?_, ?_, ?_⟩
  · have h : extra_branch_half (B_1 D n) D = ((1 + 2 * D - n : ℤ) : ℚ) := by
      simp only [extra_branch_half, B_1]
      push_cast
      ring
    rw [h, truncInt_intCast, extra_branch_absorbed, B_1]
    ring
  · simp only [extra_branch_half, B_2, extra_branch_worst]
    push_cast
    ring
  · have h : extra_branch_half (B_2 D + 1) D = ((2 * D : ℤ) : ℚ) + 1 / 2 := by
      simp only [extra_branch_half, B_2]
      push_cast
      ring
    have hpos : (0 : ℚ) ≤ ((2 * D : ℤ) : ℚ) + 1 / 2 := by
      have : (0 : ℚ) ≤ ((2 * D : ℤ) : ℚ) := by exact_mod_cast by omega
      linarith
    rw [h, truncInt_of_nonneg hpos, Int.floor_int_add]
    have hhalf : ⌊(1 / 2 : ℚ)⌋ = 0 := by norm_num
    rw [hhalf, extra_branch_worst, B_2]
    ring

/-- Concrete instantiation of `branch_boundaries_agree_amended` at `n = 0`,
`d = 2`, `k = 1`. -/
theorem branch_boundaries_agree_witness :
    truncInt (extra_branch_half (B_1 ⌊(1 : ℚ) * 2⌋ 0) ⌊(1 : ℚ) * 2⌋) =
      extra_branch_absorbed (B_1 ⌊(1 : ℚ) * 2⌋ 0) 0 ∧
    extra_branch_half (B_2 ⌊(1 : ℚ) * 2⌋) ⌊(1 : ℚ) * 2⌋ =
      (extra_branch_worst (B_2 ⌊(1 : ℚ) * 2⌋) : ℚ) + 1 ∧
    truncInt (extra_branch_half (B_2 ⌊(1 : ℚ) * 2⌋ + 1) ⌊(1 : ℚ) * 2⌋) =
      extra_branch_worst (B_2 ⌊(1 : ℚ) * 2⌋ + 1) :=
  branch_boundaries_agree_amended 0 2 1 (by decide) (by decide) (by decide)

/-- Helper: the pre-truncation extra widening is at least one for every valid
input. -/
theorem gap_extra_ge_one (L n D : ℤ) (hL : 1 ≤ L) (hn : 0 ≤ n) (hD : 0 ≤ D) :
    (1 : ℚ) ≤ gap_extra L n D := by
  unfold gap_extra
  split_ifs with h1 h2
  · simp only [extra_branch_absorbed]
    exact_mod_cast by omega
  · simp only [extra_branch_half]
    have hL' : (1 : ℚ) ≤ (L : ℚ) := by exact_mod_cast hL
    have hD' : (0 : ℚ) ≤ (D : ℚ) := by exact_mod_cast hD
    linarith
  · simp only [extra_branch_worst]
    exact_mod_cast hL

/-- C8: for every integer `L ≥ 1`, integer `n ≥ 0`, `d ≥ 0` and `k > 0`,
`gap_augmentation_expression` returns `(extra, total)` with `extra ≥ 0` and
`total ≥ n`: widening never shrinks a gap. -/
theorem gap_augmentation_monotone (L n : ℤ) (d k : ℚ)
    (hL : 1 ≤ L) (hn : 0 ≤ n) (hd : 0 ≤ d) (hk : 0 < k) :
    0 ≤ (gap_augmentation_expression L n d k).1 ∧
    n ≤ (gap_augmentation_expression L n d k).2 := by
  have hD : (0 : ℤ) ≤ ⌊k * d⌋ := Int.floor_nonneg.mpr (mul_nonneg hk.le hd)
  have hextra : (1 : ℚ) ≤ gap_extra L n ⌊k * d⌋ := gap_extra_ge_one L n _ hL hn hD
  have hextra0 : (0 : ℚ) ≤ gap_extra L n ⌊k * d⌋ := by linarith
  have hfloor : 1 ≤ ⌊gap_extra L n ⌊k * d⌋⌋ := by
    rw [show (1 : ℤ) = ⌊(1 : ℚ)⌋ from by norm_num]
    exact Int.floor_le_floor hextra
  constructor
  · simp only [gap_augmentation_expression]
    rw [truncInt_of_nonneg hextra0]
    omega
  · simp only [gap_augmentation_expression]
    have hn' : (0 : ℚ) ≤ (n : ℚ) := by exact_mod_cast hn
    rw [truncInt_of_nonneg (by linarith), Int.floor_int_add]
    omega

/-- Concrete instantiation of `gap_augmentation_monotone` at `L = 5`,
`n = 3`, `d = 10`, `k = 1`. -/
theorem gap_augmentation_monotone_witness :
    0 ≤ (gap_augmentation_expression 5 3 10 1).1 ∧
    3 ≤ (gap_augmentation_expression 5 3 10 1).2 :=
  gap_augmentation_monotone 5 3 10 1 (by decide) (by decide) (by decide) (by decide)

/-- C7: the cascade primitive applies `gap_augmentation_expression`
sequentially over an ordered multiplier list, feeding forward only the total
count as the next stage's `N_nans` for every multiplier except the last, and
returns the final stage's `(extra, total)` pair; the named compositions use
exactly the multiplier lists `[1, 1, 2]` (X1 factorized), `[1, 3]` (X1
unfactorized), `[1, 7]` (X2 unfactorized), and X2 factorized runs X1
factorized to get its total and then makes one extra widening call with
multiplier `4.0` using that total as `N_nans`. -/
theorem cascade_structure :
    (∀ (L n : ℤ) (d k : ℚ) (ks : List ℚ),
      _cascade_widening L n d (ks ++ [k]) =
        some (gap_augmentation_expression L
          (ks.foldl (fun m k' => (gap_augmentation_expression L m d k').2) n)
          d k)) ∧
    (∀ (L n : ℤ) (d : ℚ),
      widening_gap_X1 L n d = _cascade_widening L n d [1, 1, 2]) ∧
    (∀ (L n : ℤ) (d : ℚ),
      widening_gap_X1_unfactorized L n d = _cascade_widening L n d [1, 3]) ∧
    (∀ (L n : ℤ) (d : ℚ),
      widening_gap_X2_unfactorized L n d = _cascade_widening L n d [1, 7]) ∧
    (∀ (L n : ℤ) (d : ℚ),
      widening_gap_X2 L n d = (widening_gap_X1 L n d).map
        (fun r => gap_augmentation_expression L r.2 d 4)) := by
  refine ⟨?_, fun _ _ _ => rfl, fun _ _ _ => rfl, fun _ _ _ => rfl,
    fun _ _ _ => rfl⟩
  intro L n d k ks
  unfold _cascade_widening
  rw [List.getLast?_concat, List.dropLast_concat]

/-- Helper: `getD` on a mapped range evaluates the function, for indices in
range. -/
theorem getD_map_range (f : ℕ → Bool) (x : Bool) {n i : ℕ} (h : i < n) :
    ((List.range n).map f).getD i x = f i := by
  rw [List.getD_eq_getElem?_getD, List.getElem?_map, List.getElem?_range h]
  rfl

/-- Helper: a decision mask over a split range is a block of zeros followed by
a block of ones when the gap reaches the end of the array. -/
theorem map_range_split_mask (m r N : ℕ) (h : r ≤ N) :
    (List.range (m + r)).map (fun i => decide (m ≤ i ∧ i < m + N)) =
      List.replicate m false ++ List.replicate r true := by
  rw [List.range_add, List.map_append, List.map_map]
  congr 1
  · rw [List.eq_replicate_iff]
    refine ⟨by simp, ?_⟩
    intro b hb
    simp only [List.mem_map, List.mem_range] at hb
    obtain ⟨i, hi, rfl⟩ := hb
    simp only [decide_eq_false_iff_not, not_and]
    omega
  · rw [List.eq_replicate_iff]
    refine ⟨by simp, ?_⟩
    intro b hb
    simp only [List.mem_map, List.mem_range, Function.comp_apply] at hb
    obtain ⟨i, hi, rfl⟩ := hb
    simp only [decide_eq_true_eq]
    omega

/-- Helper: when the requested gap overruns the array,
`construct_mask_single_gap` is a block of ones (`false`) followed by NaNs
(`true`) to the end. -/
theorem construct_mask_single_gap_eq (N len : ℕ) (h : len ≤ len / 2 + N) :
    construct_mask_single_gap N len =
      List.replicate (len / 2) false ++ List.replicate (len - len / 2) true := by
  have hm : len / 2 ≤ len := Nat.div_le_self len 2
  have key := map_range_split_mask (len / 2) (len - len / 2) N (by omega)
  rw [construct_mask_single_gap]
  rw [show len / 2 + (len - len / 2) = len from by omega] at key
  exact key

/-- C10: for every `len ≥ 1` and `N_nans ≥ 0` with `len / 2 + N_nans > len`,
`construct_mask_single_gap` silently truncates the gap at the end of the
array: the mask has the requested length, contains exactly `len - len / 2`
NaN values (fewer than `N_nans`), has NaN at exactly the indices from
`len / 2` to the end, `1.0` at every earlier index, and no error is raised
(the function is total). -/
theorem construct_mask_single_gap_truncates (N len : ℕ)
    (hlen : 1 ≤ len) (hover : len < len / 2 + N) :
    (construct_mask_single_gap N len).length = len ∧
    (construct_mask_single_gap N len).count true = len - len / 2 ∧
    len - len / 2 < N ∧
    (∀ i, i < len / 2 → (construct_mask_single_gap N len).getD i true = false) ∧
    (∀ i, len / 2 ≤ i → i < len →
      (construct_mask_single_gap N len).getD i false = true) := by
  have hm : len / 2 ≤ len := Nat.div_le_self len 2
  have heq := construct_mask_single_gap_eq N len (by omega)
  refine ⟨by simp [construct_mask_single_gap], ?_, by omega, ?_, ?_⟩
  · rw [heq, List.count_append]
    simp [List.count_replicate]
  · intro i hi
    rw [construct_mask_single_gap, getD_map_range _ _ (by omega)]
    simp only [decide_eq_false_iff_not, not_and]
    omega
  · intro i hi1 hi2
    rw [construct_mask_single_gap, getD_map_range _ _ hi2]
    simp only [decide_eq_true_eq]
    omega

/-- Concrete instantiation of `construct_mask_single_gap_truncates` at
`N_nans = 7`, `length = 10`: only five NaNs fit. -/
theorem construct_mask_single_gap_truncates_witness :
    (construct_mask_single_gap 7 10).count true = 10 - 10 / 2 :=
  (construct_mask_single_gap_truncates 7 10 (by decide) (by decide)).2.1

/-- Stable sort of an interval list by interval start: the in-place
`intervals.sort(key=lambda x: x[0])` of the Python source. -/
def sort_by_start (intervals : List (ℤ × ℤ)) : List (ℤ × ℤ) :=
  intervals.mergeSort (fun I J => decide (I.1 ≤ J.1))

/-- Scan loop of `merge_intervals` (multi_gap_utils.py, lines 24-32): `prev`
is the interval currently at the end of the accumulator (`merged[-1]`); a
current interval starting at or before `prev.2 + 1` (overlapping or adjacent)
is absorbed into it, otherwise `prev` is final and the scan restarts from the
current interval. -/
def mergeLoop : (ℤ × ℤ) → List (ℤ × ℤ) → List (ℤ × ℤ)
  | prev, [] => [prev]
  | prev, current :: rest =>
    if current.1 ≤ prev.2 + 1 then mergeLoop (prev.1, max prev.2 current.2) rest
    else prev :: mergeLoop current rest

/-- Embedding of the value returned by `merge_intervals` (multi_gap_utils.py,
lines 9-32): an empty list yields `[]`; otherwise the intervals are sorted by
start and scanned once, merging overlapping or adjacent intervals. -/
def merge_intervals (intervals : List (ℤ × ℤ)) : List (ℤ × ℤ) :=
  match sort_by_start intervals with
  | [] => []
  | I :: rest => mergeLoop I rest

/-- State of the caller's argument list after `merge_intervals` returns: the
Python body sorts the argument list in place (`intervals.sort(...)`) before
scanning, except on the empty list, where it returns before reaching the
sort. -/
def merge_intervals_arg_after (intervals : List (ℤ × ℤ)) : List (ℤ × ℤ) :=
  if intervals.isEmpty then intervals else sort_by_start intervals

/-- Coverage of an integer index by an inclusive interval. -/
def covers (I : ℤ × ℤ) (i : ℤ) : Prop := I.1 ≤ i ∧ i ≤ I.2

instance (I : ℤ × ℤ) (i : ℤ) : Decidable (covers I i) :=
  inferInstanceAs (Decidable (_ ∧ _))

/-- Coverage of an integer index by a list of inclusive intervals. -/
def coveredBy (l : List (ℤ × ℤ)) (i : ℤ) : Prop := ∃ I ∈ l, covers I i

instance (l : List (ℤ × ℤ)) (i : ℤ) : Decidable (coveredBy l i) :=
  inferInstanceAs (Decidable (∃ I ∈ l, covers I i))

/-- Helper: no index is covered by the empty interval list. -/
theorem coveredBy_nil (i : ℤ) : ¬ coveredBy [] i := by
  simp [coveredBy]

/-- Helper: coverage by a cons splits into head and tail coverage. -/
theorem coveredBy_cons {x : ℤ × ℤ} {xs : List (ℤ × ℤ)} {i : ℤ} :
    coveredBy (x :: xs) i ↔ covers x i ∨ coveredBy xs i := by
  constructor
  · rintro ⟨I, hI, hc⟩
    rcases List.mem_cons.mp hI with rfl | h
    · exact Or.inl hc
    · exact Or.inr ⟨I, h, hc⟩
  · rintro (hc | ⟨I, hI, hc⟩)
    · exact ⟨x, List.mem_cons_self x xs, hc⟩
    · exact ⟨I, List.mem_cons_of_mem _ hI, hc⟩

/-- C4 counterexample: calling `merge_intervals` on `[(3,5),(0,2)]` leaves
the caller's argument holding `[(0,2),(3,5)]` — the same elements but not in
the same order: the in-place sort mutates the input. -/
theorem merge_intervals_mutation_counterexample :
    merge_intervals_arg_after [((3 : ℤ), (5 : ℤ)), (0, 2)] ≠
      [((3 : ℤ), (5 : ℤ)), (0, 2)] := by
  have h : merge_intervals_arg_after [((3 : ℤ), (5 : ℤ)), (0, 2)] =
      [((0 : ℤ), (2 : ℤ)), (3, 5)] := by
    simp [merge_intervals_arg_after, sort_by_start, List.mergeSort]
  rw [h]
  decide

/-- Helper: `sort_by_start` permutes its input. -/
theorem sort_by_start_perm (l : List (ℤ × ℤ)) : (sort_by_start l).Perm l :=
  List.mergeSort_perm l _

/-- Helper: `sort_by_start` output is pairwise ordered by interval start. -/
theorem sort_by_start_pairwise (l : List (ℤ × ℤ)) :
    List.Pairwise (fun I J : ℤ × ℤ => I.1 ≤ J.1) (sort_by_start l) := by
  have h := List.sorted_mergeSort
    (fun (a b c : ℤ × ℤ) (hab : (fun I J : ℤ × ℤ => decide (I.1 ≤ J.1)) a b = true)
      (hbc : (fun I J : ℤ × ℤ => decide (I.1 ≤ J.1)) b c = true) => by
      simp only [decide_eq_true_eq] at *
      exact le_trans hab hbc)
    (fun (a b : ℤ × ℤ) => by
      simp only [Bool.or_eq_true, decide_eq_true_eq]
      exact le_total a.1 b.1)
    l
  exact h.imp (fun hab => by simpa using hab)

/-- Helper: a list pairwise ordered by start is left unchanged by
`sort_by_start`. -/
theorem sort_by_start_of_sorted {l : List (ℤ × ℤ)}
    (h : List.Pairwise (fun I J : ℤ × ℤ => I.1 ≤ J.1) l) :
    sort_by_start l = l :=
  List.mergeSort_of_sorted (h.imp (fun hab => by simpa using hab))

/-- C4 amended: `merge_intervals` does mutate its argument — the call leaves
the caller's list sorted in place by interval start — but it neither adds nor
removes elements (the post-call argument is a permutation of the pre-call
argument), and an argument already sorted by start is left unchanged.  The
returned merged list itself is a freshly constructed value. -/
theorem merge_intervals_arg_perm (l : List (ℤ × ℤ)) :
    (merge_intervals_arg_after l).Perm l ∧
    (List.Pairwise (fun I J : ℤ × ℤ => I.1 ≤ J.1) l →
      merge_intervals_arg_after l = l) := by
  constructor
  · unfold merge_intervals_arg_after
    split
    · exact List.Perm.refl _
    · exact sort_by_start_perm l
  · intro hsorted
    unfold merge_intervals_arg_after
    split
    · rfl
    · exact sort_by_start_of_sorted hsorted

/-- Concrete instantiation of `merge_intervals_arg_perm`: an argument already
sorted by start is left unchanged. -/
theorem merge_intervals_arg_perm_witness :
    merge_intervals_arg_after [((0 : ℤ), (2 : ℤ)), (3, 5)] =
      [((0 : ℤ), (2 : ℤ)), (3, 5)] :=
  (merge_intervals_arg_perm _).2 (by decide)

/-- Helper: the scan loop emits a first interval that starts where `prev`
starts and ends at or after `prev`'s end. -/
theorem mergeLoop_shape (xs : List (ℤ × ℤ)) :
    ∀ prev : ℤ × ℤ, ∃ e tl, mergeLoop prev xs = (prev.1, e) :: tl ∧ prev.2 ≤ e := by
  induction xs with
  | nil =>
    intro prev
    exact ⟨prev.2, [], by simp [mergeLoop], le_refl _⟩
  | cons current rest ih =>
    intro prev
    simp only [mergeLoop]
    by_cases h : current.1 ≤ prev.2 + 1
    · rw [if_pos h]
      obtain ⟨e, tl, heq, hle⟩ := ih (prev.1, max prev.2 current.2)
      exact ⟨e, tl, heq, le_trans (le_max_left _ _) hle⟩
    · rw [if_neg h]
      exact ⟨prev.2, mergeLoop current rest, by simp, le_refl _⟩

/-- Helper: the scan loop preserves the covered index set. -/
theorem mergeLoop_coverage (xs : List (ℤ × ℤ)) :
    ∀ prev : ℤ × ℤ, (∀ I ∈ xs, prev.1 ≤ I.1) →
      List.Pairwise (fun I J : ℤ × ℤ => I.1 ≤ J.1) xs →
      ∀ i, (coveredBy (mergeLoop prev xs) i ↔ covers prev i ∨ coveredBy xs i) := by
  induction xs with
  | nil =>
    intro prev _ _ i
    simp only [mergeLoop]
    rw [coveredBy_cons]
  | cons current rest ih =>
    intro prev hstart hpair i
    rcases List.pairwise_cons.mp hpair with ⟨hcur, hpair'⟩
    simp only [mergeLoop]
    by_cases h : current.1 ≤ prev.2 + 1
    · rw [if_pos h]
      have hprevle : prev.1 ≤ current.1 := hstart current (List.mem_cons_self _ _)
      have hrest : ∀ I ∈ rest, (prev.1, max prev.2 current.2).1 ≤ I.1 := by
        intro I hI
        exact hstart I (List.mem_cons_of_mem _ hI)
      rw [ih (prev.1, max prev.2 current.2) hrest hpair' i, coveredBy_cons]
      constructor
      · rintro (⟨h1, h2⟩ | hc)
        · simp only [covers]
          by_cases hi : i ≤ prev.2
          · exact Or.inl ⟨h1, hi⟩
          · refine Or.inr (Or.inl ⟨by omega, by omega⟩)
        · exact Or.inr (Or.inr hc)
      · rintro (⟨h1, h2⟩ | ⟨h1, h2⟩ | hc)
        · exact Or.inl ⟨h1, le_trans h2 (le_max_left _ _)⟩
        · exact Or.inl ⟨le_trans hprevle h1, le_trans h2 (le_max_right _ _)⟩
        · exact Or.inr hc
    · rw [if_neg h]
      rw [coveredBy_cons, ih current hcur hpair' i, coveredBy_cons]

/-- Helper: the covered index set of `merge_intervals l` is that of `l`. -/
theorem merge_intervals_coverage (l : List (ℤ × ℤ)) (i : ℤ) :
    coveredBy (merge_intervals l) i ↔ coveredBy l i := by
  have hcov : coveredBy (sort_by_start l) i ↔ coveredBy l i := by
    unfold coveredBy
    constructor <;> rintro ⟨I, hI, hc⟩
    · exact ⟨I, (sort_by_start_perm l).mem_iff.mp hI, hc⟩
    · exact ⟨I, (sort_by_start_perm l).mem_iff.mpr hI, hc⟩
  rw [← hcov]
  unfold merge_intervals
  rcases hs : sort_by_start l with _ | ⟨x, xs⟩
  · simp
  · have hpair := sort_by_start_pairwise l
    rw [hs] at hpair
    rcases List.pairwise_cons.mp hpair with ⟨hx, hxs⟩
    rw [mergeLoop_coverage xs x hx hxs i, coveredBy_cons]

/-- Helper: the scan loop output is a chain of disjoint, non-adjacent, valid
intervals when fed valid intervals sorted by start. -/
theorem mergeLoop_chain (xs : List (ℤ × ℤ)) :
    ∀ prev : ℤ × ℤ, prev.1 ≤ prev.2 → (∀ I ∈ xs, I.1 ≤ I.2) →
      (∀ I ∈ xs, prev.1 ≤ I.1) →
      List.Pairwise (fun I J : ℤ × ℤ => I.1 ≤ J.1) xs →
      List.Chain' (fun I J : ℤ × ℤ => I.2 + 1 < J.1) (mergeLoop prev xs) ∧
      ∀ I ∈ mergeLoop prev xs, I.1 ≤ I.2 := by
  induction xs with
  | nil =>
    intro prev hprev _ _ _
    simp only [mergeLoop]
    exact ⟨List.chain'_singleton _, by simpa using hprev⟩
  | cons current rest ih =>
    intro prev hprev hvalid hstart hpair
    rcases List.pairwise_cons.mp hpair with ⟨hcur, hpair'⟩
    simp only [mergeLoop]
    by_cases h : current.1 ≤ prev.2 + 1
    · rw [if_pos h]
      refine ih (prev.1, max prev.2 current.2) ?_ ?_ ?_ hpair'
      · exact le_trans hprev (le_max_left _ _)
      · intro I hI
        exact hvalid I (List.mem_cons_of_mem _ hI)
      · intro I hI
        exact hstart I (List.mem_cons_of_mem _ hI)
    · rw [if_neg h]
      have hcv : current.1 ≤ current.2 := hvalid current (List.mem_cons_self _ _)
      obtain ⟨hchain, hval⟩ := ih current hcv
        (fun I hI => hvalid I (List.mem_cons_of_mem _ hI)) hcur hpair'
      obtain ⟨e, tl, heq, _⟩ := mergeLoop_shape rest current
      constructor
      · rw [heq] at hchain ⊢
        exact List.chain'_cons.mpr ⟨by simp only []; omega, hchain⟩
      · intro I hI
        rcases List.mem_cons.mp hI with rfl | hI'
        · exact hprev
        · exact hval I hI'

/-- Helper: a chain of valid intervals with non-adjacent consecutive members
is pairwise non-adjacent. -/
theorem chain_adjacent_pairwise :
    ∀ l : List (ℤ × ℤ), (∀ I ∈ l, I.1 ≤ I.2) →
      List.Chain' (fun I J : ℤ × ℤ => I.2 + 1 < J.1) l →
      List.Pairwise (fun I J : ℤ × ℤ => I.2 + 1 < J.1) l
  | [], _, _ => List.Pairwise.nil
  | [x], _, _ => by simp
  | x :: y :: t, hv, hc => by
    rcases List.chain'_cons.mp hc with ⟨hxy, hc'⟩
    have ih := chain_adjacent_pairwise (y :: t)
      (fun I hI => hv I (List.mem_cons_of_mem _ hI)) hc'
    refine List.pairwise_cons.mpr ⟨?_, ih⟩
    intro a ha
    rcases List.mem_cons.mp ha with rfl | hat
    · exact hxy
    · have hy2 : y.1 ≤ y.2 := hv y (by simp)
      have := (List.pairwise_cons.mp ih).1 a hat
      omega

/-- Helper: the scan loop is the identity on a chain of pairwise non-adjacent
intervals. -/
theorem mergeLoop_of_chain :
    ∀ (xs : List (ℤ × ℤ)) (prev : ℤ × ℤ),
      List.Chain' (fun I J : ℤ × ℤ => I.2 + 1 < J.1) (prev :: xs) →
      mergeLoop prev xs = prev :: xs
  | [], prev, _ => by simp [mergeLoop]
  | current :: rest, prev, hc => by
    rcases List.chain'_cons.mp hc with ⟨h1, h2⟩
    simp only [mergeLoop]
    rw [if_neg (by omega)]
    rw [mergeLoop_of_chain rest current h2]

/-- Helper: chain and validity facts about the output of `merge_intervals`. -/
theorem merge_intervals_chain (l : List (ℤ × ℤ)) (hv : ∀ I ∈ l, I.1 ≤ I.2) :
    List.Chain' (fun I J : ℤ × ℤ => I.2 + 1 < J.1) (merge_intervals l) ∧
    ∀ I ∈ merge_intervals l, I.1 ≤ I.2 := by
  unfold merge_intervals
  rcases hs : sort_by_start l with _ | ⟨x, xs⟩
  · simp
  · have hpair := sort_by_start_pairwise l
    rw [hs] at hpair
    rcases List.pairwise_cons.mp hpair with ⟨hx, hxs⟩
    have hv' : ∀ I ∈ x :: xs, I.1 ≤ I.2 := by
      intro I hI
      refine hv I ?_
      rw [← (sort_by_start_perm l).mem_iff, hs]
      exact hI
    exact mergeLoop_chain xs x (hv' x (List.mem_cons_self _ _))
      (fun I hI => hv' I (List.mem_cons_of_mem _ hI)) hx hxs

/-- Helper: `merge_intervals` is idempotent on valid input. -/
theorem merge_intervals_idem (l : List (ℤ × ℤ)) (hv : ∀ I ∈ l, I.1 ≤ I.2) :
    merge_intervals (merge_intervals l) = merge_intervals l := by
  obtain ⟨hchain, hvout⟩ := merge_intervals_chain l hv
  rcases hm : merge_intervals l with _ | ⟨y, ys⟩
  · simp [merge_intervals, sort_by_start]
  · rw [hm] at hchain hvout
    have hpw := chain_adjacent_pairwise (y :: ys) hvout hchain
    have hstarts : List.Pairwise (fun I J : ℤ × ℤ => I.1 ≤ J.1) (y :: ys) := by
      refine hpw.imp_of_mem ?_
      intro a b ha _ hab
      have := hvout a ha
      omega
    unfold merge_intervals
    rw [sort_by_start_of_sorted hstarts]
    exact mergeLoop_of_chain ys y hchain

/-- C5: for every finite list of valid integer intervals (start ≤ end),
`merge_intervals` returns a list that is sorted strictly ascending by start,
pairwise disjoint and non-adjacent, made of valid intervals, whose covered
integer index set equals the union of the inputs' index sets; applying
`merge_intervals` again returns it unchanged (idempotence); and concretely,
merging `[(0,2),(3,5),(10,12)]` yields `[(0,5),(10,12)]`. -/
theorem merge_intervals_correct (l : List (ℤ × ℤ)) (hv : ∀ I ∈ l, I.1 ≤ I.2) :
    List.Pairwise (fun I J : ℤ × ℤ => I.1 < J.1) (merge_intervals l) ∧
    List.Pairwise (fun I J : ℤ × ℤ => I.2 + 1 < J.1) (merge_intervals l) ∧
    (∀ I ∈ merge_intervals l, I.1 ≤ I.2) ∧
    (∀ i, coveredBy (merge_intervals l) i ↔ coveredBy l i) ∧
    merge_intervals (merge_intervals l) = merge_intervals l ∧
    merge_intervals [((0 : ℤ), (2 : ℤ)), (3, 5), (10, 12)] = [(0, 5), (10, 12)] := by
  obtain ⟨hchain, hvout⟩ := merge_intervals_chain l hv
  have hpw := chain_adjacent_pairwise _ hvout hchain
  refine ⟨?_, hpw, hvout, merge_intervals_coverage l, merge_intervals_idem l hv, ?_⟩
  · refine hpw.imp_of_mem ?_
    intro a b ha _ hab
    have := hvout a ha
    omega
  · have hs : sort_by_start [((0 : ℤ), (2 : ℤ)), (3, 5), (10, 12)] =
        [((0 : ℤ), (2 : ℤ)), (3, 5), (10, 12)] :=
      sort_by_start_of_sorted (by decide)
    unfold merge_intervals
    rw [hs]
    decide

/-- Concrete instantiation of `merge_intervals_correct`: the merged form of
`[(0,2),(3,5),(10,12)]`. -/
theorem merge_intervals_correct_witness :
    merge_intervals [((0 : ℤ), (2 : ℤ)), (3, 5), (10, 12)] = [(0, 5), (10, 12)] :=
  (merge_intervals_correct [((0 : ℤ), (2 : ℤ)), (3, 5), (10, 12)]
    (by decide)).2.2.2.2.2

/-- Indices of NaN samples in ascending order:
`np.argwhere(np.isnan(object_w_nans)).flatten()` (multi_gap_utils.py,
line 44). -/
def nan_indices (obj : List Bool) : List ℕ :=
  (List.range obj.length).filter (fun i => obj.getD i false)

/-- Splitting of an ascending index list into maximal runs of consecutive
indices: `np.split(nan_indices, np.where(np.diff(nan_indices) > 1)[0] + 1)`
(multi_gap_utils.py, line 47).  A new run starts exactly where the difference
between consecutive indices exceeds one. -/
def splitRuns : List ℕ → List (List ℕ)
  | [] => []
  | [x] => [[x]]
  | x :: y :: xs =>
    match splitRuns (y :: xs) with
    | [] => [[x]]
    | B :: rest => if x + 1 < y then [x] :: B :: rest else (x :: B) :: rest

/-- Embedding of `nans_blocks_function` (multi_gap_utils.py, lines 34-47):
the contiguous NaN blocks of a series, as lists of ascending indices.  An
input without NaN yields the empty list (the source's empty integer array). -/
def nans_blocks_function (obj : List Bool) : List (List ℕ) :=
  splitRuns (nan_indices obj)

/-- Inclusive integer range `a..b`: `np.arange(start, end + 1)`
(multi_gap_utils.py, line 133). -/
def intRange (a b : ℤ) : List ℤ :=
  (List.range (b + 1 - a).toNat).map (fun (i : ℕ) => a + (i : ℤ))

/-- Half-support `p = int((order + 1) / 2)` of `compute_nan_indices_delay`
(multi_gap_utils.py, line 113). -/
def half_support (order : ℤ) : ℤ := truncInt (((order : ℚ) + 1) / 2)

/-- Direct and delayed affected intervals collected per NaN block
(multi_gap_utils.py, lines 115-128): for a block with first index `f` and
last index `l`, the direct interval `(f, l)` and the delayed interval
`(f + delay - p + 1, l + delay - (1 - p) + 1)`.  An empty block is
unreachable (`nans_blocks_function` never produces one). -/
def affected_intervals_of (delay p : ℤ) (blocks : List (List ℕ)) :
    List (ℤ × ℤ) :=
  blocks.flatMap (fun block =>
    match block with
    | [] => []
    | f :: rest =>
      [((f : ℤ), ((f :: rest).getLastD 0 : ℤ)),
       ((f : ℤ) + delay - p + 1,
        ((f :: rest).getLastD 0 : ℤ) + delay - (1 - p) + 1)])

/-- Body of `compute_nan_indices_delay` with the half-support `p` already
computed (multi_gap_utils.py, lines 110-141): merge the affected intervals,
enumerate their indices, keep those inside `[0, N)`, and paint them as NaN on
a fresh all-ones mask.  When no interval was collected (input without NaN)
the source crashes at `np.concatenate([])` with a `ValueError`, modelled as
`none`.  The source's `np.unique` (sort and deduplicate) is omitted: painting
the mask depends only on index membership. -/
def compute_nan_indices_delayP (obj : List Bool) (delay p : ℤ) :
    Option (List Bool) :=
  if merge_intervals (affected_intervals_of delay p (nans_blocks_function obj)) = []
  then none
  else
    some ((List.range obj.length).map (fun (j : ℕ) => decide ((j : ℤ) ∈
      ((merge_intervals (affected_intervals_of delay p
          (nans_blocks_function obj))).flatMap
        (fun I => intRange I.1 I.2)).filter
        (fun i => decide (0 ≤ i) && decide (i < (obj.length : ℤ))))))

/-- Embedding of `compute_nan_indices_delay` (multi_gap_utils.py, lines
98-141), with `p = int((order + 1) / 2)`. -/
def compute_nan_indices_delay (obj : List Bool) (delay order : ℤ) :
    Option (List Bool) :=
  compute_nan_indices_delayP obj delay (half_support order)

/-- Embedding of `mask_eta` (multi_gap_utils.py, lines 143-158): one
propagation stage with integer delay `int(np.floor(delay))`. -/
def mask_eta (mask_telemetry : List Bool) (delay : ℚ) (order : ℤ) :
    Option (List Bool) :=
  compute_nan_indices_delay mask_telemetry ⌊delay⌋ order

/-- Embedding of `mask_TDI_X` (multi_gap_utils.py, lines 160-188): chained
propagation stages with delays `floor(delay)`, `floor(delay)`,
`floor(2*delay)`, and, for generation 2, `floor(4*delay)`. -/
def mask_TDI_X (mask_telemetry : List Bool) (delay : ℚ)
    (order generation : ℤ) : Option (List Bool) := do
  let eta ← compute_nan_indices_delay mask_telemetry ⌊delay⌋ order
  let a12 ← compute_nan_indices_delay eta ⌊delay⌋ order
  let r12 ← compute_nan_indices_delay a12 ⌊2 * delay⌋ order
  if generation = 1 then some r12
  else compute_nan_indices_delay r12 ⌊4 * delay⌋ order

/-- Helper: a run split of a nonempty list starts with a block headed by the
first element. -/
theorem splitRuns_shape : ∀ (x : ℕ) (xs : List ℕ),
    ∃ B rest, splitRuns (x :: xs) = (x :: B) :: rest
  | _, [] => ⟨[], [], rfl⟩
  | x, y :: ys => by
    obtain ⟨B, rest, hB⟩ := splitRuns_shape y ys
    simp only [splitRuns]
    rw [hB]
    dsimp only
    by_cases h : x + 1 < y
    · rw [if_pos h]
      exact ⟨[], (y :: B) :: rest, rfl⟩
    · rw [if_neg h]
      exact ⟨y :: B, rest, rfl⟩

/-- Helper: concatenating the runs gives back the original list. -/
theorem splitRuns_flatten : ∀ l : List ℕ, (splitRuns l).flatten = l
  | [] => rfl
  | [_] => rfl
  | x :: y :: ys => by
    have ih := splitRuns_flatten (y :: ys)
    obtain ⟨B, rest, hB⟩ := splitRuns_shape y ys
    simp only [splitRuns]
    rw [hB]
    dsimp only
    rw [hB] at ih
    by_cases h : x + 1 < y
    · rw [if_pos h]
      simpa using ih
    · rw [if_neg h]
      simpa using ih

/-- Helper: every run is nonempty. -/
theorem splitRuns_ne_nil : ∀ (l : List ℕ) (B : List ℕ), B ∈ splitRuns l → B ≠ []
  | [], B, hB => by simp [splitRuns] at hB
  | [x], B, hB => by
    simp [splitRuns] at hB
    simp [hB]
  | x :: y :: ys, B, hB => by
    obtain ⟨B', rest, hshape⟩ := splitRuns_shape y ys
    simp only [splitRuns] at hB
    rw [hshape] at hB
    dsimp only at hB
    by_cases h : x + 1 < y
    · rw [if_pos h] at hB
      rcases List.mem_cons.mp hB with rfl | hB'
      · simp
      · exact splitRuns_ne_nil (y :: ys) B (by rw [hshape]; exact hB')
    · rw [if_neg h] at hB
      rcases List.mem_cons.mp hB with rfl | hB'
      · simp
      · exact splitRuns_ne_nil (y :: ys) B
          (by rw [hshape]; exact List.mem_cons_of_mem _ hB')

/-- Helper: every run of a strictly increasing list is strictly increasing. -/
theorem splitRuns_chain_lt : ∀ l : List ℕ,
    List.Chain' (fun a b : ℕ => a < b) l →
    ∀ B ∈ splitRuns l, List.Chain' (fun a b : ℕ => a < b) B
  | [], _, B, hB => by simp [splitRuns] at hB
  | [x], _, B, hB => by
    simp [splitRuns] at hB
    simp [hB]
  | x :: y :: ys, hc, B, hB => by
    rcases List.chain'_cons.mp hc with ⟨hxy, hc'⟩
    have ih := splitRuns_chain_lt (y :: ys) hc'
    obtain ⟨B', rest, hshape⟩ := splitRuns_shape y ys
    simp only [splitRuns] at hB
    rw [hshape] at hB
    dsimp only at hB
    by_cases h : x + 1 < y
    · rw [if_pos h] at hB
      rcases List.mem_cons.mp hB with rfl | hB'
      · exact List.chain'_singleton _
      · exact ih B (by rw [hshape]; exact hB')
    · rw [if_neg h] at hB
      rcases List.mem_cons.mp hB with rfl | hB'
      · have hyB : List.Chain' (fun a b : ℕ => a < b) (y :: B') :=
          ih (y :: B') (by rw [hshape]; exact List.mem_cons_self _ _)
        exact List.chain'_cons'.mpr ⟨by intro z hz; simp at hz; omega, hyB⟩
      · exact ih B (by rw [hshape]; exact List.mem_cons_of_mem _ hB')

/-- Helper: the last-element default is irrelevant on a nonempty list. -/
theorem getLastD_cons_irrel (a : ℕ) (l : List ℕ) (d e : ℕ) :
    (a :: l).getLastD d = (a :: l).getLastD e := by
  cases l with
  | nil => rfl
  | cons b t => rw [List.getLastD_cons d a (b :: t), List.getLastD_cons e a (b :: t)]

/-- Helper: every member of a strictly increasing nonempty list lies between
the head and the last element. -/
theorem chain_lt_mem_bounds : ∀ (x : ℕ) (t : List ℕ),
    List.Chain' (fun a b : ℕ => a < b) (x :: t) →
    ∀ i ∈ x :: t, x ≤ i ∧ i ≤ (x :: t).getLastD 0
  | x, [], _, i, hi => by
    simp at hi
    simp [hi]
  | x, y :: t, hc, i, hi => by
    rcases List.chain'_cons.mp hc with ⟨hxy, hc'⟩
    have ih := chain_lt_mem_bounds y t hc'
    rw [List.getLastD_cons, getLastD_cons_irrel y t x 0]
    rcases List.mem_cons.mp hi with rfl | hi'
    · have hy := (ih y (List.mem_cons_self _ _)).2
      exact ⟨le_refl _, by omega⟩
    · have hb := ih i hi'
      exact ⟨by omega, hb.2⟩

/-- Helper: membership in `nan_indices` is exactly being an in-range NaN
index. -/
theorem nan_indices_mem (obj : List Bool) (i : ℕ) :
    i ∈ nan_indices obj ↔ i < obj.length ∧ obj.getD i false = true := by
  unfold nan_indices
  rw [List.mem_filter, List.mem_range]

/-- Helper: `nan_indices` is strictly increasing. -/
theorem nan_indices_chain (obj : List Bool) :
    List.Chain' (fun a b : ℕ => a < b) (nan_indices obj) := by
  unfold nan_indices
  exact ((List.pairwise_lt_range obj.length).filter _).chain'

/-- Helper: membership in an inclusive integer range. -/
theorem intRange_mem (a b i : ℤ) : i ∈ intRange a b ↔ a ≤ i ∧ i ≤ b := by
  unfold intRange
  simp only [List.mem_map, List.mem_range]
  constructor
  · rintro ⟨j, hj, rfl⟩
    omega
  · rintro ⟨h1, h2⟩
    exact ⟨(i - a).toNat, by omega, by omega⟩

/-- Helper: coverage by the collected affected intervals, expressed per NaN
block with first index `f = B.headD 0` and last index `l = B.getLastD 0`. -/
theorem coveredBy_affected (delay p : ℤ) (blocks : List (List ℕ)) (i : ℤ) :
    coveredBy (affected_intervals_of delay p blocks) i ↔
    ∃ B ∈ blocks, B ≠ [] ∧
      (((B.headD 0 : ℤ) ≤ i ∧ i ≤ (B.getLastD 0 : ℤ)) ∨
       ((B.headD 0 : ℤ) + delay - p + 1 ≤ i ∧
        i ≤ (B.getLastD 0 : ℤ) + delay - (1 - p) + 1)) := by
  unfold coveredBy affected_intervals_of
  constructor
  · rintro ⟨I, hI, hc⟩
    rw [List.mem_flatMap] at hI
    obtain ⟨B, hB, hIB⟩ := hI
    cases B with
    | nil => simp at hIB
    | cons f rest =>
      refine ⟨f :: rest, hB, by simp, ?_⟩
      simp only [List.headD_cons]
      dsimp only at hIB
      rcases List.mem_cons.mp hIB with rfl | hIB'
      · exact Or.inl hc
      · rcases List.mem_cons.mp hIB' with rfl | h0
        · exact Or.inr hc
        · simp at h0
  · rintro ⟨B, hB, hne, hcase⟩
    cases B with
    | nil => exact absurd rfl hne
    | cons f rest =>
      simp only [List.headD_cons] at hcase
      rcases hcase with h | h
      · exact ⟨((f : ℤ), ((f :: rest).getLastD 0 : ℤ)),
          List.mem_flatMap.mpr ⟨f :: rest, hB, by
            dsimp only
            exact List.mem_cons_self _ _⟩, h⟩
      · exact ⟨((f : ℤ) + delay - p + 1,
            ((f :: rest).getLastD 0 : ℤ) + delay - (1 - p) + 1),
          List.mem_flatMap.mpr ⟨f :: rest, hB, by
            dsimp only
            exact List.mem_cons_of_mem _ (List.mem_cons_self _ _)⟩, h⟩

/-- Helper: `merge_intervals` of a nonempty list is nonempty. -/
theorem merge_intervals_ne_nil {l : List (ℤ × ℤ)} (h : l ≠ []) :
    merge_intervals l ≠ [] := by
  unfold merge_intervals
  rcases hs : sort_by_start l with _ | ⟨x, xs⟩
  · have hp := sort_by_start_perm l
    rw [hs] at hp
    exact absurd hp.symm.eq_nil h
  · dsimp only
    obtain ⟨e, tl, heq, _⟩ := mergeLoop_shape xs x
    rw [heq]
    simp

/-- Helper: characterization of a successful `compute_nan_indices_delayP`
run: the output has the input's length, and its NaN set is exactly the set of
in-range indices covered by some collected interval. -/
theorem compute_nan_indices_delayP_spec {obj : List Bool} {delay p : ℤ}
    {out : List Bool} (h : compute_nan_indices_delayP obj delay p = some out) :
    out.length = obj.length ∧
    ∀ j < obj.length, (out.getD j false = true ↔
      coveredBy (affected_intervals_of delay p (nans_blocks_function obj))
        (j : ℤ)) := by
  unfold compute_nan_indices_delayP at h
  split_ifs at h with hnil
  rw [Option.some_inj] at h
  subst h
  refine ⟨by simp, ?_⟩
  intro j hj
  rw [getD_map_range _ _ hj, decide_eq_true_eq, List.mem_filter]
  simp only [Bool.and_eq_true, decide_eq_true_eq]
  have hflat : ((j : ℤ) ∈
      (merge_intervals (affected_intervals_of delay p
        (nans_blocks_function obj))).flatMap (fun I => intRange I.1 I.2)) ↔
      coveredBy (merge_intervals (affected_intervals_of delay p
        (nans_blocks_function obj))) (j : ℤ) := by
    rw [List.mem_flatMap]
    unfold coveredBy
    constructor
    · rintro ⟨I, hI, hr⟩
      exact ⟨I, hI, (intRange_mem _ _ _).mp hr⟩
    · rintro ⟨I, hI, hc⟩
      exact ⟨I, hI, (intRange_mem _ _ _).mpr ⟨hc.1, hc.2⟩⟩
  constructor
  · rintro ⟨hmem, _, _⟩
    exact (merge_intervals_coverage _ _).mp (hflat.mp hmem)
  · intro hcov
    refine ⟨hflat.mpr ((merge_intervals_coverage _ _).mpr hcov),
      Int.natCast_nonneg j, ?_⟩
    exact_mod_cast hj

/-- Helper: an input with at least one NaN index makes
`compute_nan_indices_delayP` succeed. -/
theorem compute_nan_indices_delayP_isSome (obj : List Bool) (delay p : ℤ)
    (h : nan_indices obj ≠ []) :
    ∃ out, compute_nan_indices_delayP obj delay p = some out := by
  rcases hn : nan_indices obj with _ | ⟨x, xs⟩
  · exact absurd hn h
  · have hblocks : nans_blocks_function obj = splitRuns (x :: xs) := by
      rw [nans_blocks_function, hn]
    obtain ⟨B, rest, hshape⟩ := splitRuns_shape x xs
    have haff : affected_intervals_of delay p (nans_blocks_function obj) ≠ [] := by
      rw [hblocks, hshape]
      intro hcontra
      have hmem : ((x : ℤ), ((x :: B).getLastD 0 : ℤ)) ∈
          affected_intervals_of delay p ((x :: B) :: rest) := by
        unfold affected_intervals_of
        refine List.mem_flatMap.mpr ⟨x :: B, List.mem_cons_self _ _, ?_⟩
        dsimp only
        exact List.mem_cons_self _ _
      rw [hcontra] at hmem
      simp at hmem
    have hm := merge_intervals_ne_nil haff
    unfold compute_nan_indices_delayP
    rw [if_neg hm]
    exact ⟨_, rfl⟩

/-- Helper: an input without NaN crashes `compute_nan_indices_delayP` (the
`np.concatenate([])` `ValueError` of the source). -/
theorem compute_nan_indices_delayP_none (obj : List Bool) (delay p : ℤ)
    (h : nan_indices obj = []) :
    compute_nan_indices_delayP obj delay p = none := by
  have hblocks : nans_blocks_function obj = [] := by
    rw [nans_blocks_function, h]
    rfl
  unfold compute_nan_indices_delayP
  rw [hblocks]
  rw [show affected_intervals_of delay p [] = [] from rfl]
  rw [show merge_intervals [] = [] from by simp [merge_intervals, sort_by_start]]
  rw [if_pos rfl]

/-- C2 (code defect): on an input without NaN — e.g. three plain samples, or
the empty array — `nans_blocks_function` returns the empty block list as the
claim states, but `compute_nan_indices_delay` (and hence `mask_eta` and
`mask_TDI_X`) does NOT return the identity mask: the source reaches
`np.concatenate([])`, which raises `ValueError`, modelled here as `none`. -/
theorem compute_nan_indices_no_nan_raises :
    nans_blocks_function [false, false, false] = [] ∧
    nans_blocks_function [] = [] ∧
    compute_nan_indices_delay [false, false, false] 5 5 = none ∧
    compute_nan_indices_delay [] 5 5 = none ∧
    mask_eta [false, false, false] 5 5 = none ∧
    mask_TDI_X [false, false, false] 5 5 2 = none := by
  have h3 : nan_indices [false, false, false] = [] := by decide
  have h0 : nan_indices ([] : List Bool) = [] := by decide
  refine ⟨by decide, by decide, ?_, ?_, ?_, ?_⟩
  · exact compute_nan_indices_delayP_none _ _ _ h3
  · exact compute_nan_indices_delayP_none _ _ _ h0
  · exact compute_nan_indices_delayP_none _ _ _ h3
  · unfold mask_TDI_X
    rw [show compute_nan_indices_delay [false, false, false] ⌊(5 : ℚ)⌋ 5 = none
      from compute_nan_indices_delayP_none _ _ _ h3]
    rfl

/-- C6: for every input mask containing at least one NaN and every `delay`
and `order`, `compute_nan_indices_delay` succeeds, its output has the same
length as the input (so every NaN index of the output lies in
`[0, length-1]`), and the output's NaN set is a superset of the input's NaN
set: a gap never heals. -/
theorem compute_nan_indices_delay_conservative (obj : List Bool)
    (delay order : ℤ) (h : ∃ i, obj.getD i false = true) :
    (compute_nan_indices_delay obj delay order).isSome = true ∧
    ((compute_nan_indices_delay obj delay order).getD []).length = obj.length ∧
    ∀ i, obj.getD i false = true →
      ((compute_nan_indices_delay obj delay order).getD []).getD i false = true := by
  obtain ⟨i0, hi0⟩ := h
  have hi0len : i0 < obj.length := by
    by_contra hge
    rw [List.getD_eq_default _ _ (by omega)] at hi0
    exact absurd hi0 (by simp)
  have hmem0 : i0 ∈ nan_indices obj := (nan_indices_mem obj i0).mpr ⟨hi0len, hi0⟩
  have hne : nan_indices obj ≠ [] := List.ne_nil_of_mem hmem0
  obtain ⟨out, hout⟩ :=
    compute_nan_indices_delayP_isSome obj delay (half_support order) hne
  have hcompute : compute_nan_indices_delay obj delay order = some out := hout
  obtain ⟨hlen, hchar⟩ := compute_nan_indices_delayP_spec hout
  rw [hcompute]
  refine ⟨rfl, by simpa using hlen, ?_⟩
  intro i hi
  have hilen : i < obj.length := by
    by_contra hgt
    rw [List.getD_eq_default _ _ (by omega)] at hi
    exact absurd hi (by simp)
  have himem : i ∈ nan_indices obj := (nan_indices_mem obj i).mpr ⟨hilen, hi⟩
  have hiflat : i ∈ (splitRuns (nan_indices obj)).flatten := by
    rw [splitRuns_flatten]
    exact himem
  rw [List.mem_flatten] at hiflat
  obtain ⟨B, hB, hiB⟩ := hiflat
  have hBchain := splitRuns_chain_lt (nan_indices obj) (nan_indices_chain obj) B hB
  have hBne := splitRuns_ne_nil (nan_indices obj) B hB
  cases B with
  | nil => exact absurd rfl hBne
  | cons f rest =>
    have hbounds := chain_lt_mem_bounds f rest hBchain i hiB
    simp only [Option.getD_some]
    rw [hchar i hilen, coveredBy_affected]
    refine ⟨f :: rest, hB, by simp, Or.inl ⟨?_, ?_⟩⟩
    · simp only [List.headD_cons]
      exact_mod_cast hbounds.1
    · exact_mod_cast hbounds.2

/-- Concrete instantiation of `compute_nan_indices_delay_conservative` on a
one-sample gap. -/
theorem compute_nan_indices_delay_conservative_witness :
    (compute_nan_indices_delay [true] 0 1).isSome = true :=
  (compute_nan_indices_delay_conservative [true] 0 1 ⟨0, rfl⟩).1

/-- Helper: full evaluation of the propagation scenario on the code: a mask
of length 20 with a gap at indices 9..11, delay 5, order 5 (`p = 3`)
propagates to NaN at exactly the indices 9..19. -/
theorem compute_gap_example :
    compute_nan_indices_delay
        ((List.range 20).map (fun (i : ℕ) => decide (9 ≤ i ∧ i ≤ 11))) 5 5 =
      some ((List.range 20).map (fun (j : ℕ) => decide (9 ≤ j ∧ j ≤ 19))) := by
  have hp : half_support 5 = 3 := by
    norm_num [half_support, truncInt]
  unfold compute_nan_indices_delay
  rw [hp]
  have haff : affected_intervals_of 5 3 (nans_blocks_function
      ((List.range 20).map (fun (i : ℕ) => decide (9 ≤ i ∧ i ≤ 11)))) =
      [((9 : ℤ), (11 : ℤ)), (12, 19)] := by decide
  unfold compute_nan_indices_delayP
  rw [haff]
  have hmerge : merge_intervals [((9 : ℤ), (11 : ℤ)), (12, 19)] = [(9, 19)] := by
    unfold merge_intervals
    rw [sort_by_start_of_sorted (by decide)]
    decide
  rw [hmerge]
  decide

/-- C1 counterexample: in the claim's own scenario (mask of length 20 with a
single gap at indices 9..11, delay 5, order 5, `p = 3`) the code's output
also has NaN at index 19, because the delayed range produced by the source
ends at `l + delay + p = 19` and not at `l + delay + p - 1 = 18`: the output
is NOT `NaN exactly at 9..18 and 1.0 elsewhere`. -/
theorem compute_nan_indices_delay_counterexample :
    compute_nan_indices_delay
        ((List.range 20).map (fun (i : ℕ) => decide (9 ≤ i ∧ i ≤ 11))) 5 5 ≠
      some ((List.range 20).map (fun (j : ℕ) => decide (9 ≤ j ∧ j ≤ 18))) ∧
    ((compute_nan_indices_delay
        ((List.range 20).map (fun (i : ℕ) => decide (9 ≤ i ∧ i ≤ 11))) 5 5).getD
      []).getD 19 false = true := by
  rw [compute_gap_example]
  exact ⟨by decide, by decide⟩

/-- C1 amended: for every mask, integer delay `d` and order `L` with
`p = half_support L = int((L+1)/2)`, a successful run of
`compute_nan_indices_delay` marks, for each input NaN block with first index
`f` and last index `l`, exactly the direct range `[f, l]` and the delayed
range `[f + d - p + 1, l + d + p]` (both inclusive; the source's upper bound
`l + d - (1 - p) + 1` equals `l + d + p`, one more than the claimed
`l + d + p - 1`), merged and clipped to `[0, length - 1]`; in particular, for
a mask of length 20 with a single gap at indices 9..11, delay 5 and order 5,
the output has NaN exactly at indices 9..19 (not 9..18) and 1.0 elsewhere.
A run fails (whence the `some` hypothesis) exactly on inputs without NaN. -/
theorem compute_nan_indices_delay_spec_amended (obj : List Bool)
    (delay order : ℤ) (out : List Bool)
    (h : compute_nan_indices_delay obj delay order = some out) :
    out.length = obj.length ∧
    (∀ j < obj.length, (out.getD j false = true ↔
      ∃ B ∈ nans_blocks_function obj, B ≠ [] ∧
        (((B.headD 0 : ℤ) ≤ (j : ℤ) ∧ (j : ℤ) ≤ (B.getLastD 0 : ℤ)) ∨
         ((B.headD 0 : ℤ) + delay - half_support order + 1 ≤ (j : ℤ) ∧
          (j : ℤ) ≤ (B.getLastD 0 : ℤ) + delay + half_support order)))) ∧
    compute_nan_indices_delay
        ((List.range 20).map (fun (i : ℕ) => decide (9 ≤ i ∧ i ≤ 11))) 5 5 =
      some ((List.range 20).map (fun (j : ℕ) => decide (9 ≤ j ∧ j ≤ 19))) := by
  obtain ⟨hlen, hchar⟩ := compute_nan_indices_delayP_spec h
  refine ⟨hlen, ?_, compute_gap_example⟩
  intro j hj
  rw [hchar j hj, coveredBy_affected]
  constructor
  · rintro ⟨B, hB, hne, hcase⟩
    refine ⟨B, hB, hne, ?_⟩
    rcases hcase with hc | hc
    · exact Or.inl hc
    · exact Or.inr ⟨hc.1, by omega⟩
  · rintro ⟨B, hB, hne, hcase⟩
    refine ⟨B, hB, hne, ?_⟩
    rcases hcase with hc | hc
    · exact Or.inl hc
    · exact Or.inr ⟨hc.1, by omega⟩

/-- Concrete instantiation of `compute_nan_indices_delay_spec_amended` on the
scenario of the claim: output and input have the same length. -/
theorem compute_nan_indices_delay_spec_amended_witness :
    ((List.range 20).map (fun (j : ℕ) => decide (9 ≤ j ∧ j ≤ 19))).length =
      ((List.range 20).map (fun (i : ℕ) => decide (9 ≤ i ∧ i ≤ 11))).length :=
  (compute_nan_indices_delay_spec_amended _ 5 5 _ compute_gap_example).1
